import Mathlib

/-!
Shallow embedding of the balancing engine of the BoardGeekGames corpus
repository: the review data model (models/review.py), the augmentation
manager (balancing/augmentation.py), the helper that copies a review
(balancing/helpers.py), the per-game balancer
(balancing/single_game_balance.py) and the multi-game aggregator
(balancing/multi_game_balance.py).

Modelling conventions:
* Python floats are modelled as exact rationals; every numeric value the
  claims touch is exactly representable.
* Python `int(x)` for a rational is truncation toward zero.
* Python object attributes that are set dynamically (language, fileid,
  raw_text, is_augmented, augmented_from) are `Option` fields where `none`
  means the attribute is absent; `getattr` defaults are applied at use
  sites exactly as in the source.
* `id(obj)` object identity is modelled by a `pyid : Nat` field.
* The process-wide random generator is an injected oracle (`Rand`): an
  index stream for `random.choice`, a permutation for `random.sample` and
  one for `random.shuffle`.  Theorems that need it assume the sampling and
  shuffling oracles are permutations, which `random.sample` and
  `random.shuffle` guarantee.
* A stateful augmentation backend that may raise is a function from the
  call number to `Except err (List String)`; an `Except.error` result is a
  raised exception at that call.
-/

namespace BGG

/-- Review record (models/review.py plus the dynamically set attributes
used by the balancing code). -/
structure Review where
  pyid : Nat := 0
  username : Option String := none
  rating : Option ℚ := none
  comment : String := ""
  timestamp : Option Int := none
  game_id : Option Int := none
  label : Option String := none
  category : Option String := none
  language : Option String := none
  fileid : Option String := none
  raw_text : Option String := none
  is_augmented : Bool := false
  augmented_from : Option Nat := none
  deriving Repr, DecidableEq

instance : Inhabited Review := ⟨{}⟩

/-- rating_to_label (models/review.py): rating ≥ 7 positive, ≥ 5 neutral,
otherwise negative; no rating, no label. -/
def rating_to_label (rating : Option ℚ) : Option String :=
  match rating with
  | none => none
  | some r => if 7 ≤ r then some "positive" else if 5 ≤ r then some "neutral" else some "negative"

/-- create_augmented_review (balancing/helpers.py): a fresh Review object
receives username, rating, timestamp, game_id, category, label and fileid
from the original (the copied-attribute list does NOT include language),
then comment and raw_text are set to the augmented text, is_augmented to
true and augmented_from to the identity of the original. -/
def create_augmented_review (original : Review) (augmented_text : String) : Review :=
  { username := original.username
    rating := original.rating
    timestamp := original.timestamp
    game_id := original.game_id
    category := original.category
    label := original.label
    fileid := original.fileid
    comment := augmented_text
    raw_text := some augmented_text
    is_augmented := true
    augmented_from := some original.pyid }

/-- A stateful augmentation call: argument 1 is the call number (the
internal state of the backend advances at every call), then the text, the
language tag and the requested number of variants; `Except.error` is an
exception raised by the backend. -/
def Augmenter : Type := Nat → String → String → Nat → Except String (List String)

/-- Random oracle standing for the process-wide `random` module. -/
structure Rand where
  choice : String → Nat → Nat := fun _ _ => 0
  sampleP : String → List Review → List Review := fun _ l => l
  shuffleP : List Review → List Review := id

/-- random.sample(l, k): k elements chosen without replacement, modelled
as a prefix of an oracle permutation of l. -/
def pysample (r : Rand) (cat : String) (l : List Review) (k : Nat) : List Review :=
  (r.sampleP cat l).take k

/-- Python int() on a rational: truncation toward zero. -/
def pytrunc (q : ℚ) : Int := Int.tdiv q.num (q.den : Int)

/-- Python str.strip(): remove leading and trailing whitespace.  (Same
behaviour as String.trim, stated over the character list so that it
computes by structural recursion.) -/
def pystrip (s : String) : String :=
  ⟨((s.data.dropWhile Char.isWhitespace).reverse.dropWhile Char.isWhitespace).reverse⟩

/-- getattr(review, ..., language default): `getattr(r, "language", "en") or "en"`;
an absent or empty language tag falls back to "en". -/
def pyLang (r : Review) : String :=
  match r.language with
  | none => "en"
  | some s => if s = "" then "en" else s

/-- cat_dict[c]: the input reviews whose category attribute is c
(single_game_balance.py lines 55-59). -/
def catGroup (reviews : List Review) (c : String) : List Review :=
  reviews.filter (fun r => r.category = some c)

/-- counts_before as a function: the dict has exactly the configured
categories as keys. -/
def countsBefore (reviews : List Review) (categories : List String) : String → Nat :=
  fun c => if c ∈ categories then (catGroup reviews c).length else 0

/-- max(counts_before.values()) if counts_before else 0. -/
def maxCount (reviews : List Review) (categories : List String) : Nat :=
  (categories.map (fun c => (catGroup reviews c).length)).foldr max 0

/-- min((c for c in counts_before.values() if c > 0), default=0): the
smallest NON-EMPTY category size, 0 when all are empty. -/
def minCount (reviews : List Review) (categories : List String) : Nat :=
  (((categories.map (fun c => (catGroup reviews c).length)).filter (fun n => 0 < n)).min?).getD 0

/-- Hybrid target-ratio derivation (single_game_balance.py lines 90-98). -/
def deriveTargetRatio (ratio : ℚ) : ℚ :=
  if 10 < ratio then 1/2
  else if 5 < ratio then 3/5
  else if 2 < ratio then 3/4
  else 1

/-- ratio = max_count / max(min_count, 1) (line 90). -/
def ratioOf (max_count min_count : Nat) : ℚ :=
  (max_count : ℚ) / (max min_count 1 : ℚ)

/-- Hybrid base target: max(int(max_count * target_ratio), min_samples_for_balance)
(line 99); int() truncates toward zero. -/
def hybridBase (max_count : Nat) (tr : ℚ) (min_samples : Nat) : Nat :=
  max (pytrunc ((max_count : ℚ) * tr)).toNat min_samples

/-- base_target per strategy (lines 84-99): undersample takes min_count,
oversample max_count, any other strategy string takes the hybrid branch. -/
def baseTarget (strategy : String) (target_ratio : Option ℚ)
    (max_count min_count min_samples : Nat) : Nat :=
  if strategy = "undersample" then min_count
  else if strategy = "oversample" then max_count
  else
    let tr := match target_ratio with
      | some t => t
      | none => deriveTargetRatio (ratioOf max_count min_count)
    hybridBase max_count tr min_samples

/-- Inner for-loop over one augmentation result (lines 155-166): stop at
`needed` accepted, strip each variant, reject empty strings and strings
equal to the trimmed source comment, otherwise append an augmented copy. -/
def augAccept (base : Review) (needed : Nat) :
    List Review → List String → List Review
  | acc, [] => acc
  | acc, t :: ts =>
    if needed ≤ acc.length then acc
    else
      let s := pystrip t
      if s = "" ∨ s = pystrip base.comment then augAccept base needed acc ts
      else augAccept base needed (acc ++ [create_augmented_review base s]) ts

/-- The augmentation while-loop (lines 139-170), structurally recursive on
the remaining attempt budget (fuel = max_attempts - attempts).  Each
iteration draws a base review from the choice oracle, asks the augmenter
for min(max_augmentations_per_review, 1 + needed // max(1, current))
variants, swallows a raised exception as no variants, and filters and
accepts variants with augAccept.  Returns the accepted reviews and the
final attempt counter. -/
def augLoop (f : Augmenter) (catReviews : List Review) (lang : String)
    (needed current maxPer : Nat) (choice : Nat → Nat) :
    Nat → Nat → List Review → List Review × Nat
  | 0, attempts, acc => (acc, attempts)
  | fuel + 1, attempts, acc =>
    if needed ≤ acc.length then (acc, attempts)
    else
      match f attempts
          (catReviews.getD (choice attempts % catReviews.length) default).comment lang
          (min maxPer (1 + needed / max 1 current)) with
      | Except.error _ => augLoop f catReviews lang needed current maxPer choice fuel (attempts + 1) acc
      | Except.ok texts =>
        augLoop f catReviews lang needed current maxPer choice fuel (attempts + 1)
          (augAccept (catReviews.getD (choice attempts % catReviews.length) default)
            needed acc texts)

/-- One iteration of the per-category loop (lines 117-197): returns the
reviews this category contributes to balanced_reviews together with the
number of augmented reviews created, the number subsampled away, and
whether the augmentation branch ran. -/
def balanceCat (strategy : String) (target : Nat) (am : Option Augmenter)
    (maxPer : Nat) (rand : Rand) (cat : String) (catReviews : List Review) :
    List Review × Nat × Nat × Bool :=
  let current := catReviews.length
  if current = 0 then ([], 0, 0, false)
  else if current < target then
    match am with
    | some f =>
      let lang := pyLang (catReviews.headD default)
      let needed := target - current
      let res := augLoop f catReviews lang needed current maxPer (rand.choice cat)
        (needed * 5) 0 []
      (catReviews ++ res.1.take needed, res.1.length, 0, true)
    | none => (catReviews, 0, 0, false)
  else if target < current ∧ (strategy = "undersample" ∨ strategy = "hybrid") then
    (pysample rand cat catReviews target, 0, current - target, false)
  else (catReviews, 0, 0, false)

/-- Per-game balancing statistics; `augmentation_used = none` models the
absence of that key in the stats dict (the skip path omits it). -/
structure BalanceStats where
  before : String → Nat
  after : String → Nat
  strategy : String
  balanced : Bool
  augmented_count : Nat
  subsampled_count : Nat
  augmentation_used : Option Bool

/-- Accumulator of the per-category loop. -/
structure BalState where
  bal : List Review := []
  after : String → Nat := fun _ => 0
  aug : Nat := 0
  sub : Nat := 0
  used : Bool := false

/-- Loop body folded over the configured categories. -/
def balStep (reviews : List Review) (strategy : String) (target : Nat)
    (am : Option Augmenter) (maxPer : Nat) (rand : Rand)
    (st : BalState) (cat : String) : BalState :=
  let contrib := balanceCat strategy target am maxPer rand cat (catGroup reviews cat)
  { bal := st.bal ++ contrib.1
    after := fun c => if c = cat then contrib.1.length else st.after c
    aug := st.aug + contrib.2.1
    sub := st.sub + contrib.2.2.1
    used := st.used || contrib.2.2.2 }

/-- balance_single_game (single_game_balance.py).  Grouping, the
empty-category guard, the strategy target, the per-category loop and the
final shuffle; verbose printing and logging are ignored. -/
def balance_single_game (reviews : List Review)
    (categories : List String := ["positive", "neutral", "negative"])
    (min_samples_for_balance : Nat := 30)
    (balance_strategy : String := "oversample")
    (target_ratio : Option ℚ := none)
    (augmentation_manager : Option Augmenter := none)
    (max_augmentations_per_review : Nat := 2)
    (rand : Rand := {}) : List Review × BalanceStats :=
  if minCount reviews categories = 0 ∨ maxCount reviews categories = 0 then
    (reviews,
      { before := countsBefore reviews categories
        after := countsBefore reviews categories
        strategy := "none"
        balanced := false
        augmented_count := 0
        subsampled_count := 0
        augmentation_used := none })
  else
    let st := categories.foldl
      (balStep reviews balance_strategy
        (baseTarget balance_strategy target_ratio (maxCount reviews categories)
          (minCount reviews categories) min_samples_for_balance)
        augmentation_manager max_augmentations_per_review rand) {}
    (rand.shuffleP st.bal,
      { before := countsBefore reviews categories
        after := st.after
        strategy := balance_strategy
        balanced := true
        augmented_count := st.aug
        subsampled_count := st.sub
        augmentation_used := some st.used })

/-- A language-specific augmentation backend (an nlpaug augmenter): given
the number of prior calls (its internal random state), either raises or
returns its raw variants for the fixed input text; a single-string result
is a one-element list. -/
def Backend : Type := Nat → Except String (List String)

/-- AugmentationManager state after initialization: the per-language
augmenter table; languages whose initialization failed are absent. -/
structure AugmentationManager where
  augmenters : String → Option Backend

/-- list(dict.fromkeys(l)): de-duplication keeping the FIRST occurrence of
each string, in order. -/
def pydedup (l : List String) : List String :=
  l.foldl (fun acc a => if a ∈ acc then acc else acc ++ [a]) []

/-- AugmentationManager.augment (augmentation.py lines 29-73): short or
empty input gives no variants; the augmenter for the language, with
fallback to the "en" augmenter, is called max(1, num_augmentations) times
with per-call exceptions swallowed; results are stripped, empties and
copies of the trimmed input dropped, and de-duplicated preserving order.
The cleaned list is NOT truncated to num_augmentations. -/
def AugmentationManager.augment (m : AugmentationManager) (text : String)
    (lang : String := "en") (num_augmentations : Nat := 1) : List String :=
  if text = "" ∨ (pystrip text).length < 5 then []
  else
    match (m.augmenters lang).orElse (fun _ => m.augmenters "en") with
    | none => []
    | some backend =>
      let raw := (List.range (max 1 num_augmentations)).foldl
        (fun acc i =>
          match backend i with
          | Except.error _ => acc
          | Except.ok l => acc ++ l) []
      let cleaned := raw.foldl
        (fun acc a =>
          if pystrip a = "" ∨ pystrip a = pystrip text then acc else acc ++ [pystrip a]) []
      pydedup cleaned

/-- game_stats[gid] entry (multi_game_balance.py lines 64-72). -/
structure GameEntry where
  counts_before : String → Nat
  counts_after : String → Nat
  total_before : Nat
  total_after : Nat
  augmented_count : Nat
  subsampled_count : Nat
  balance_stats : BalanceStats

/-- The global statistics dict returned by
collect_balanced_reviews_multi_game (lines 93-103). -/
structure GlobalStats where
  counts_before : String → Nat
  counts_after : String → Nat
  total_before : Nat
  total_after : Nat
  total_augmented : Nat
  total_subsampled : Nat
  balance_ratio_max_min : ℚ
  balance_strategy : String
  game_stats : List (Nat × GameEntry)

/-- Accumulator of the per-game loop of the aggregator. -/
structure MultiState where
  collected : List Review := []
  game_stats : List (Nat × GameEntry) := []
  gBefore : String → Nat := fun _ => 0
  gAfter : String → Nat := fun _ => 0
  totAug : Nat := 0
  totSub : Nat := 0

/-- The balanced output of one game inside the aggregator, as a
standalone function of the game id. -/
def gameBalanced (merge_reviews_func : Nat → String → List Review)
    (categories : List String) (min_samples_for_balance : Nat)
    (balance_strategy : String) (target_ratio : Option ℚ)
    (manager : Option Augmenter) (maxPer : Nat) (source : String)
    (randOf : Nat → Rand) (gid : Nat) : List Review :=
  (balance_single_game (merge_reviews_func gid source) categories
    min_samples_for_balance balance_strategy target_ratio manager maxPer
    (randOf gid)).1

/-- The per-game balancing statistics of one game inside the
aggregator. -/
def gameStatsOf (merge_reviews_func : Nat → String → List Review)
    (categories : List String) (min_samples_for_balance : Nat)
    (balance_strategy : String) (target_ratio : Option ℚ)
    (manager : Option Augmenter) (maxPer : Nat) (source : String)
    (randOf : Nat → Rand) (gid : Nat) : BalanceStats :=
  (balance_single_game (merge_reviews_func gid source) categories
    min_samples_for_balance balance_strategy target_ratio manager maxPer
    (randOf gid)).2

/-- The game_stats[gid] entry recorded for a processed game
(multi_game_balance.py lines 64-72): counts are recounted from the
balanced output. -/
def multiEntry (merge_reviews_func : Nat → String → List Review)
    (categories : List String) (min_samples_for_balance : Nat)
    (balance_strategy : String) (target_ratio : Option ℚ)
    (manager : Option Augmenter) (maxPer : Nat) (source : String)
    (randOf : Nat → Rand) (gid : Nat) : GameEntry :=
  { counts_before := countsBefore (merge_reviews_func gid source) categories
    counts_after := fun c => if c ∈ categories then
      (catGroup (gameBalanced merge_reviews_func categories min_samples_for_balance
        balance_strategy target_ratio manager maxPer source randOf gid) c).length else 0
    total_before := (categories.dedup.map
      (fun c => (catGroup (merge_reviews_func gid source) c).length)).sum
    total_after := (gameBalanced merge_reviews_func categories min_samples_for_balance
      balance_strategy target_ratio manager maxPer source randOf gid).length
    augmented_count := ((gameBalanced merge_reviews_func categories
      min_samples_for_balance balance_strategy target_ratio manager maxPer source
      randOf gid).filter (fun r => r.is_augmented)).length
    subsampled_count := (gameStatsOf merge_reviews_func categories
      min_samples_for_balance balance_strategy target_ratio manager maxPer source
      randOf gid).subsampled_count
    balance_stats := gameStatsOf merge_reviews_func categories
      min_samples_for_balance balance_strategy target_ratio manager maxPer source
      randOf gid }

/-- One iteration of the per-game loop (lines 31-76): a game whose loader
yields no reviews is skipped entirely; otherwise the single-game balancer
runs and all counters and the stats entry are accumulated. -/
def multiStep (merge_reviews_func : Nat → String → List Review)
    (categories : List String) (min_samples_for_balance : Nat)
    (balance_strategy : String) (target_ratio : Option ℚ)
    (manager : Option Augmenter) (maxPer : Nat) (source : String)
    (randOf : Nat → Rand) (st : MultiState) (gid : Nat) : MultiState :=
  if merge_reviews_func gid source = [] then st
  else
    { collected := st.collected ++ gameBalanced merge_reviews_func categories
        min_samples_for_balance balance_strategy target_ratio manager maxPer
        source randOf gid
      game_stats := st.game_stats ++ [(gid, multiEntry merge_reviews_func categories
        min_samples_for_balance balance_strategy target_ratio manager maxPer
        source randOf gid)]
      gBefore := fun c => st.gBefore c + (if c ∈ categories then
        (catGroup (merge_reviews_func gid source) c).length else 0)
      gAfter := fun c => st.gAfter c + (if c ∈ categories then
        (catGroup (gameBalanced merge_reviews_func categories
          min_samples_for_balance balance_strategy target_ratio manager maxPer
          source randOf gid) c).length else 0)
      totAug := st.totAug + ((gameBalanced merge_reviews_func categories
        min_samples_for_balance balance_strategy target_ratio manager maxPer
        source randOf gid).filter (fun r => r.is_augmented)).length
      totSub := st.totSub + (gameStatsOf merge_reviews_func categories
        min_samples_for_balance balance_strategy target_ratio manager maxPer
        source randOf gid).subsampled_count }

/-- collect_balanced_reviews_multi_game (multi_game_balance.py).  The
shared augmentation manager is constructed once when use_augmentation is
true (its augment capability is the injected `am`); games are processed in
input order; printing and tqdm are ignored. -/
def collect_balanced_reviews_multi_game (all_game_ids : List Nat)
    (merge_reviews_func : Nat → String → List Review)
    (categories : List String := ["positive", "neutral", "negative"])
    (min_samples_for_balance : Nat := 30)
    (balance_strategy : String := "hybrid")
    (target_ratio : Option ℚ := some (3/5))
    (use_augmentation : Bool := true)
    (am : Augmenter)
    (max_augmentations_per_review : Nat := 2)
    (source : String := "combined")
    (randOf : Nat → Rand := fun _ => {}) : List Review × GlobalStats :=
  let manager : Option Augmenter := if use_augmentation then some am else none
  let st := all_game_ids.foldl
    (multiStep merge_reviews_func categories min_samples_for_balance
      balance_strategy target_ratio manager max_augmentations_per_review
      source randOf) {}
  let vals := (categories.dedup.map st.gAfter).filter (fun n => 0 < n)
  (st.collected,
    { counts_before := st.gBefore
      counts_after := st.gAfter
      total_before := (categories.dedup.map st.gBefore).sum
      total_after := st.collected.length
      total_augmented := st.totAug
      total_subsampled := st.totSub
      balance_ratio_max_min :=
        if vals = [] then 0
        else (vals.foldr max 0 : ℚ) / (max (vals.min?.getD 0) 1 : ℚ)
      balance_strategy := balance_strategy
      game_stats := st.game_stats })

/-- An augmenter that raises on every call. -/
def raisingAug : Augmenter := fun _ _ _ _ => Except.error "backend down"

/-- An augmenter that answers every call with one fixed fresh variant. -/
def okAug : Augmenter := fun _ _ _ _ => Except.ok ["a fine variant"]

/-- An augmenter with raised exceptions replaced by the empty variant
list. -/
def nullifyErrors (f : Augmenter) : Augmenter := fun i t l n =>
  match f i t l n with
  | Except.error _ => Except.ok []
  | Except.ok xs => Except.ok xs

/-- A backend that answers every call with one fixed variant. -/
def bkOne : Backend := fun _ => Except.ok ["hello world"]

/-- A backend that raises on every call. -/
def bkErr : Backend := fun _ => Except.error "down"

/-- A manager whose only augmenter is the default-language one. -/
def mgrOne : AugmentationManager := ⟨fun l => if l = "en" then some bkOne else none⟩

/-- A manager whose default-language augmenter raises on every call. -/
def mgrErr : AugmentationManager := ⟨fun l => if l = "en" then some bkErr else none⟩

/-- Concrete positive review used in witnesses and counterexamples. -/
def revP : Review :=
  { pyid := 1, rating := some 8, comment := "good game fun", category := some "positive" }

/-- A second concrete positive review. -/
def revP2 : Review :=
  { pyid := 2, rating := some 9, comment := "great game wow", category := some "positive" }

/-- Concrete negative review. -/
def revN : Review :=
  { pyid := 3, rating := some 2, comment := "bad game meh", category := some "negative" }

/-- Concrete neutral review. -/
def revU : Review :=
  { pyid := 4, rating := some 6, comment := "an okay game overall", category := some "neutral" }

/-- The default category tuple. -/
def cats3 : List String := ["positive", "neutral", "negative"]

/-- The end-to-end example of the spec: 40 positive, 5 neutral and 50
negative reviews of one game. -/
def exHybridReviews : List Review :=
  List.replicate 40 revP ++ List.replicate 5 revU ++ List.replicate 50 revN

/-- A positive review carrying a Spanish language tag. -/
def revEs : Review := { revP with language := some "es" }

/-- What actually holds of every review accepted by the augmentation
loop: it is flagged as augmented, its comment is a non-empty trimmed
variant, and there is a source review in the category whose identity it
references, whose trimmed comment it differs from, and whose username,
rating, timestamp, game_id, category, label and fileid it copies; the
language attribute is NOT copied (it is left unset) and raw_text equals
the new comment. -/
def AugOk (catReviews : List Review) (a : Review) : Prop :=
  a.is_augmented = true ∧ a.comment ≠ ""
  ∧ ∃ src ∈ catReviews,
      a.augmented_from = some src.pyid ∧ a.comment ≠ pystrip src.comment
      ∧ a.username = src.username ∧ a.rating = src.rating ∧ a.timestamp = src.timestamp
      ∧ a.game_id = src.game_id ∧ a.category = src.category ∧ a.label = src.label
      ∧ a.fileid = src.fileid ∧ a.language = none ∧ a.raw_text = some a.comment

section Lemmas

theorem foldr_max_eq_zero_iff (l : List Nat) : l.foldr max 0 = 0 ↔ ∀ x ∈ l, x = 0 := by
  induction l with
  | nil => simp
  | cons a l ih => simp [Nat.max_eq_zero_iff, ih]

theorem le_foldr_max (l : List Nat) {x : Nat} (hx : x ∈ l) : x ≤ l.foldr max 0 := by
  induction l with
  | nil => cases hx
  | cons a l ih =>
    rcases List.mem_cons.mp hx with h | h
    · subst h; exact Nat.le_max_left _ _
    · exact le_trans (ih h) (Nat.le_max_right _ _)

theorem maxCount_eq_zero_iff (reviews : List Review) (categories : List String) :
    maxCount reviews categories = 0 ↔ ∀ c ∈ categories, (catGroup reviews c).length = 0 := by
  unfold maxCount
  rw [foldr_max_eq_zero_iff]
  constructor
  · intro h c hc
    exact h _ (List.mem_map_of_mem _ hc)
  · intro h x hx
    rcases List.mem_map.mp hx with ⟨c, hc, rfl⟩
    exact h c hc

theorem count_le_maxCount (reviews : List Review) (categories : List String)
    {c : String} (hc : c ∈ categories) :
    (catGroup reviews c).length ≤ maxCount reviews categories :=
  le_foldr_max _ (List.mem_map_of_mem _ hc)

theorem minCount_eq_zero_iff (reviews : List Review) (categories : List String) :
    minCount reviews categories = 0 ↔ maxCount reviews categories = 0 := by
  unfold minCount
  rcases h : ((categories.map (fun c => (catGroup reviews c).length)).filter
      (fun n => 0 < n)).min? with _ | a
  · have hfilter := List.min?_eq_none_iff.mp h
    rw [h]
    simp only [Option.getD_none]
    constructor
    · intro _
      rw [maxCount_eq_zero_iff]
      intro c hc
      by_contra hne
      have hmem : (catGroup reviews c).length ∈
          (categories.map (fun c => (catGroup reviews c).length)).filter (fun n => 0 < n) := by
        refine List.mem_filter.mpr ⟨List.mem_map_of_mem _ hc, ?_⟩
        simpa using Nat.pos_of_ne_zero hne
      rw [hfilter] at hmem
      cases hmem
    · intro _; trivial
  · have hmem := (List.min?_eq_some_iff').mp h
    have hpos : 0 < a := by
      have := List.mem_filter.mp hmem.1
      simpa using this.2
    rw [h]
    simp only [Option.getD_some]
    constructor
    · intro ha; omega
    · intro hmax
      have hin := (List.mem_filter.mp hmem.1).1
      rcases List.mem_map.mp hin with ⟨c, hc, hlen⟩
      have := (maxCount_eq_zero_iff reviews categories).mp hmax c hc
      omega

theorem minCount_le (reviews : List Review) (categories : List String)
    {c : String} (hc : c ∈ categories) (hpos : 0 < (catGroup reviews c).length) :
    minCount reviews categories ≤ (catGroup reviews c).length := by
  unfold minCount
  have hmem : (catGroup reviews c).length ∈
      (categories.map (fun c => (catGroup reviews c).length)).filter (fun n => 0 < n) :=
    List.mem_filter.mpr ⟨List.mem_map_of_mem _ hc, by simpa using hpos⟩
  rcases h : ((categories.map (fun c => (catGroup reviews c).length)).filter
      (fun n => 0 < n)).min? with _ | a
  · rw [List.min?_eq_none_iff.mp h] at hmem
    cases hmem
  · rw [h]
    exact ((List.min?_eq_some_iff').mp h).2 _ hmem

theorem augAccept_augok {base : Review} {catReviews : List Review}
    (hbase : base ∈ catReviews) (needed : Nat) :
    ∀ (ts : List String) (acc : List Review), (∀ a ∈ acc, AugOk catReviews a) →
      ∀ a ∈ augAccept base needed acc ts, AugOk catReviews a := by
  intro ts
  induction ts with
  | nil => intro acc hacc a ha; exact hacc a ha
  | cons t ts ih =>
    intro acc hacc a ha
    rw [augAccept] at ha
    by_cases hlen : needed ≤ acc.length
    · rw [if_pos hlen] at ha
      exact hacc a ha
    · rw [if_neg hlen] at ha
      by_cases hbad : pystrip t = "" ∨ pystrip t = pystrip base.comment
      · rw [if_pos hbad] at ha
        exact ih acc hacc a ha
      · rw [if_neg hbad] at ha
        push_neg at hbad
        refine ih _ ?_ a ha
        intro b hb
        rcases List.mem_append.mp hb with hb | hb
        · exact hacc b hb
        · rcases List.mem_singleton.mp hb with rfl
          refine ⟨rfl, hbad.1, base, hbase, rfl, hbad.2, rfl, rfl, rfl, rfl, rfl, rfl,
            rfl, rfl, rfl⟩

theorem augLoop_augok {f : Augmenter} {catReviews : List Review} {lang : String}
    {needed current maxPer : Nat} {choice : Nat → Nat}
    (hne : catReviews ≠ []) :
    ∀ (fuel attempts : Nat) (acc : List Review), (∀ a ∈ acc, AugOk catReviews a) →
      ∀ a ∈ (augLoop f catReviews lang needed current maxPer choice fuel attempts acc).1,
        AugOk catReviews a := by
  intro fuel
  induction fuel with
  | zero => intro attempts acc hacc a ha; exact hacc a ha
  | succ fuel ih =>
    intro attempts acc hacc a ha
    rw [augLoop] at ha
    by_cases hlen : needed ≤ acc.length
    · rw [if_pos hlen] at ha
      exact hacc a ha
    · rw [if_neg hlen] at ha
      have hbase : catReviews.getD (choice attempts % catReviews.length) default
          ∈ catReviews := by
        have hlt : choice attempts % catReviews.length < catReviews.length :=
          Nat.mod_lt _ (List.length_pos.mpr hne)
        rw [List.getD_eq_getElem _ _ hlt]
        exact List.getElem_mem hlt
      rcases hf : f attempts
          (catReviews.getD (choice attempts % catReviews.length) default).comment lang
          (min maxPer (1 + needed / max 1 current)) with e | texts
      · rw [hf] at ha
        exact ih _ acc hacc a ha
      · rw [hf] at ha
        exact ih _ _ (augAccept_augok hbase needed texts acc hacc) a ha

theorem augAccept_length_le {base : Review} {needed : Nat} :
    ∀ (ts : List String) (acc : List Review), acc.length ≤ needed →
      (augAccept base needed acc ts).length ≤ needed := by
  intro ts
  induction ts with
  | nil => intro acc hacc; exact hacc
  | cons t ts ih =>
    intro acc hacc
    rw [augAccept]
    by_cases hlen : needed ≤ acc.length
    · rw [if_pos hlen]; exact hacc
    · rw [if_neg hlen]
      by_cases hbad : pystrip t = "" ∨ pystrip t = pystrip base.comment
      · rw [if_pos hbad]; exact ih acc hacc
      · rw [if_neg hbad]
        refine ih _ ?_
        rw [List.length_append, List.length_singleton]
        omega

theorem augLoop_spec {f : Augmenter} {catReviews : List Review} {lang : String}
    {needed current maxPer : Nat} {choice : Nat → Nat} :
    ∀ (fuel attempts : Nat) (acc : List Review), acc.length ≤ needed →
      ((augLoop f catReviews lang needed current maxPer choice fuel attempts acc).1.length
          ≤ needed)
      ∧ ((augLoop f catReviews lang needed current maxPer choice fuel attempts acc).2
          ≤ attempts + fuel)
      ∧ ((augLoop f catReviews lang needed current maxPer choice fuel attempts acc).1.length
            < needed →
          (augLoop f catReviews lang needed current maxPer choice fuel attempts acc).2
            = attempts + fuel) := by
  intro fuel
  induction fuel with
  | zero =>
    intro attempts acc hacc
    exact ⟨hacc, Nat.le_refl _, fun _ => rfl⟩
  | succ fuel ih =>
    intro attempts acc hacc
    rw [augLoop]
    by_cases hlen : needed ≤ acc.length
    · rw [if_pos hlen]
      dsimp only
      exact ⟨hacc, by omega, fun h => by omega⟩
    · rw [if_neg hlen]
      rcases hf : f attempts
          (catReviews.getD (choice attempts % catReviews.length) default).comment lang
          (min maxPer (1 + needed / max 1 current)) with e | texts
      · dsimp only
        have h := ih (attempts + 1) acc hacc
        exact ⟨h.1, by omega, fun hl => by have := h.2.2 hl; omega⟩
      · dsimp only
        have h := ih (attempts + 1)
          (augAccept (catReviews.getD (choice attempts % catReviews.length) default)
            needed acc texts)
          (augAccept_length_le texts acc hacc)
        exact ⟨h.1, by omega, fun hl => by have := h.2.2 hl; omega⟩

theorem baseTarget_hybrid_none (mx mn ms : Nat) :
    baseTarget "hybrid" none mx mn ms
      = hybridBase mx (deriveTargetRatio (ratioOf mx mn)) ms := rfl

theorem deriveTargetRatio_ratio_ten : deriveTargetRatio (ratioOf 50 5) = 3/5 := by
  norm_num [deriveTargetRatio, ratioOf]

theorem hybridBase_50 : hybridBase 50 (3/5) 10 = 30 := by
  unfold hybridBase pytrunc
  norm_num
  decide

theorem hybridBase_41 : hybridBase 41 (3/4) 10 = 30 := by
  unfold hybridBase pytrunc
  norm_num
  decide

theorem balStep_after_other {reviews : List Review} {strategy : String} {target : Nat}
    {am : Option Augmenter} {maxPer : Nat} {rand : Rand} {st : BalState}
    {c cat : String} (h : ¬ c = cat) :
    (balStep reviews strategy target am maxPer rand st cat).after c = st.after c := by
  simp [balStep, h]

theorem foldl_after_not_mem {reviews : List Review} {strategy : String} {target : Nat}
    {am : Option Augmenter} {maxPer : Nat} {rand : Rand} {c : String} :
    ∀ (l : List String) (st : BalState), c ∉ l →
      ((l.foldl (balStep reviews strategy target am maxPer rand) st).after c = st.after c) := by
  intro l
  induction l with
  | nil => intro st _; rfl
  | cons cat rest ih =>
    intro st hc
    rw [List.foldl_cons]
    rw [ih _ (fun h => hc (List.mem_cons_of_mem _ h))]
    exact balStep_after_other (fun h => hc (h ▸ List.mem_cons_self _ _))

theorem foldl_after_mem {reviews : List Review} {strategy : String} {target : Nat}
    {am : Option Augmenter} {maxPer : Nat} {rand : Rand} {c : String} :
    ∀ (l : List String) (st : BalState), c ∈ l →
      ((l.foldl (balStep reviews strategy target am maxPer rand) st).after c
        = (balanceCat strategy target am maxPer rand c (catGroup reviews c)).1.length) := by
  intro l
  induction l with
  | nil => intro st hc; cases hc
  | cons cat rest ih =>
    intro st hc
    rw [List.foldl_cons]
    by_cases hrest : c ∈ rest
    · exact ih _ hrest
    · have hcat : c = cat := by
        rcases List.mem_cons.mp hc with h | h
        · exact h
        · exact absurd h hrest
      subst hcat
      rw [foldl_after_not_mem _ _ hrest]
      simp [balStep]

theorem foldl_bal {reviews : List Review} {strategy : String} {target : Nat}
    {am : Option Augmenter} {maxPer : Nat} {rand : Rand} :
    ∀ (l : List String) (st : BalState),
      ((l.foldl (balStep reviews strategy target am maxPer rand) st).bal
        = st.bal ++ (l.map (fun cat =>
            (balanceCat strategy target am maxPer rand cat (catGroup reviews cat)).1)).flatten) := by
  intro l
  induction l with
  | nil => intro st; simp
  | cons cat rest ih =>
    intro st
    rw [List.foldl_cons, ih]
    simp [balStep, List.append_assoc]

theorem ite_indicator_sum_le_one (x : Option String) :
    ∀ (cats : List String), cats.Nodup →
      (cats.map (fun c => if x = some c then 1 else 0)).sum ≤ 1 := by
  intro cats
  induction cats with
  | nil => intro _; simp
  | cons c0 cs ih =>
    intro hnd
    rcases List.nodup_cons.mp hnd with ⟨hc0, hcs⟩
    rw [List.map_cons, List.sum_cons]
    by_cases hx : x = some c0
    · have hz : ((cs.map (fun c => if x = some c then 1 else 0)).sum : Nat) = 0 := by
        refine List.sum_eq_zero ?_
        intro y hy
        rcases List.mem_map.mp hy with ⟨c, hcmem, rfl⟩
        have : ¬ x = some c := by
          intro hxc
          rw [hx] at hxc
          exact hc0 (Option.some_injective _ hxc ▸ hcmem)
        simp [this]
      rw [hz, if_pos hx]
    · rw [if_neg hx]
      simpa using ih hcs

theorem sum_catGroup_le (categories : List String) (hnd : categories.Nodup) :
    ∀ (reviews : List Review),
      (categories.map (fun c => (catGroup reviews c).length)).sum ≤ reviews.length := by
  intro reviews
  induction reviews with
  | nil => simp [catGroup]
  | cons r rest ih =>
    have hsplit : ∀ c : String, (catGroup (r :: rest) c).length
        = (catGroup rest c).length + (if r.category = some c then 1 else 0) := by
      intro c
      unfold catGroup
      rw [List.filter_cons]
      by_cases h : r.category = some c
      · simp [h]
      · simp [h]
    calc (categories.map (fun c => (catGroup (r :: rest) c).length)).sum
        = (categories.map (fun c =>
            (catGroup rest c).length + (if r.category = some c then 1 else 0))).sum := by
          congr 1
          exact List.map_congr_left (fun c _ => hsplit c)
      _ = (categories.map (fun c => (catGroup rest c).length)).sum
            + (categories.map (fun c => if r.category = some c then 1 else 0)).sum := by
          rw [← List.sum_map_add]
      _ ≤ rest.length + 1 := by
          have h1 := ite_indicator_sum_le_one r.category categories hnd
          omega
      _ = (r :: rest).length := by simp

theorem balanceCat_under_len {am : Option Augmenter} {maxPer : Nat} {rand : Rand}
    {cat : String} (hperm : ∀ cat l, (rand.sampleP cat l).Perm l)
    (m : Nat) (g : List Review) (hm : 0 < g.length → m ≤ g.length) :
    (balanceCat "undersample" m am maxPer rand cat g).1.length
      = if g.length = 0 then 0 else m := by
  unfold balanceCat
  by_cases h0 : g.length = 0
  · rw [if_pos h0, if_pos h0]
    rfl
  · simp only [if_neg h0]
    have hpos : 0 < g.length := Nat.pos_of_ne_zero h0
    have hle := hm hpos
    rw [if_neg (by omega)]
    by_cases hlt : m < g.length
    · rw [if_pos ⟨hlt, by simp⟩]
      simp only [pysample]
      rw [List.length_take, (hperm cat g).length_eq]
      omega
    · rw [if_neg (fun hcon => hlt hcon.1)]
      dsimp only
      omega

theorem balanceCat_over_none_len {maxPer : Nat} {rand : Rand} {cat : String}
    (m : Nat) (g : List Review) :
    (balanceCat "oversample" m none maxPer rand cat g).1.length
      = if g.length = 0 then 0 else g.length := by
  unfold balanceCat
  by_cases h0 : g.length = 0
  · rw [if_pos h0, if_pos h0]
    rfl
  · rw [if_neg h0, if_neg h0]
    by_cases hlt : g.length < m
    · rw [if_pos hlt]
    · rw [if_neg hlt]
      rw [if_neg (fun hcon => by rcases hcon.2 with h | h <;> exact absurd h (by decide))]

theorem balanceCat_over_some_len {f : Augmenter} {maxPer : Nat} {rand : Rand}
    {cat : String} (m : Nat) (g : List Review) (h0 : g.length ≠ 0) (hlt : g.length < m) :
    (balanceCat "oversample" m (some f) maxPer rand cat g).1.length
      = g.length + min ((augLoop f g (pyLang (g.headD default)) (m - g.length) g.length
          maxPer (rand.choice cat) ((m - g.length) * 5) 0 []).1.length) (m - g.length) := by
  unfold balanceCat
  rw [if_neg h0, if_pos hlt]
  simp only [List.length_append, List.length_take]
  omega

theorem balanceCat_pass_len {am : Option Augmenter} {maxPer : Nat} {rand : Rand}
    {cat : String} (m : Nat) (g : List Review) (h0 : g.length ≠ 0)
    (hge : ¬ g.length < m) :
    (balanceCat "oversample" m am maxPer rand cat g).1.length = g.length := by
  unfold balanceCat
  rw [if_neg h0, if_neg hge]
  rw [if_neg (fun hcon => by rcases hcon.2 with h | h <;> exact absurd h (by decide))]

theorem foldl_length_le {α β : Type} (step : List α → β → List α)
    (hstep : ∀ acc a, (step acc a).length ≤ acc.length + 1) :
    ∀ (l : List β) (acc : List α), (l.foldl step acc).length ≤ acc.length + l.length := by
  intro l
  induction l with
  | nil => intro acc; simp
  | cons b l ih =>
    intro acc
    rw [List.foldl_cons]
    calc (l.foldl step (step acc b)).length ≤ (step acc b).length + l.length := ih _
      _ ≤ acc.length + 1 + l.length := by have := hstep acc b; omega
      _ = acc.length + (b :: l).length := by simp; omega

theorem foldl_fixed {α β : Type} (step : α → β → α) (h : ∀ acc a, step acc a = acc) :
    ∀ (l : List β) (acc : α), l.foldl step acc = acc := by
  intro l
  induction l with
  | nil => intro acc; rfl
  | cons b l ih => intro acc; rw [List.foldl_cons, h]; exact ih acc

theorem pydedup_aux_nodup :
    ∀ (l acc : List String), acc.Nodup →
      (l.foldl (fun acc a => if a ∈ acc then acc else acc ++ [a]) acc).Nodup := by
  intro l
  induction l with
  | nil => intro acc h; exact h
  | cons a l ih =>
    intro acc h
    rw [List.foldl_cons]
    by_cases hmem : a ∈ acc
    · rw [if_pos hmem]; exact ih acc h
    · rw [if_neg hmem]
      refine ih _ ?_
      simp [List.nodup_append, h, hmem]

theorem pydedup_aux_mem :
    ∀ (l acc : List String) (s : String),
      s ∈ l.foldl (fun acc a => if a ∈ acc then acc else acc ++ [a]) acc →
      s ∈ acc ∨ s ∈ l := by
  intro l
  induction l with
  | nil => intro acc s h; exact Or.inl h
  | cons a l ih =>
    intro acc s h
    rw [List.foldl_cons] at h
    by_cases hmem : a ∈ acc
    · rw [if_pos hmem] at h
      rcases ih acc s h with h | h
      · exact Or.inl h
      · exact Or.inr (List.mem_cons_of_mem _ h)
    · rw [if_neg hmem] at h
      rcases ih _ s h with h | h
      · rcases List.mem_append.mp h with h | h
        · exact Or.inl h
        · exact Or.inr (List.mem_singleton.mp h ▸ List.mem_cons_self _ _)
      · exact Or.inr (List.mem_cons_of_mem _ h)

theorem pydedup_nodup (l : List String) : (pydedup l).Nodup :=
  pydedup_aux_nodup l [] List.nodup_nil

theorem pydedup_subset {l : List String} {s : String} (h : s ∈ pydedup l) : s ∈ l := by
  rcases pydedup_aux_mem l [] s h with h | h
  · cases h
  · exact h

theorem cleaned_mem {text : String} :
    ∀ (raw acc : List String), (∀ s ∈ acc, s ≠ "" ∧ s ≠ pystrip text) →
      ∀ s ∈ raw.foldl (fun acc a =>
          if pystrip a = "" ∨ pystrip a = pystrip text then acc else acc ++ [pystrip a]) acc,
        s ≠ "" ∧ s ≠ pystrip text := by
  intro raw
  induction raw with
  | nil => intro acc hacc s hs; exact hacc s hs
  | cons a raw ih =>
    intro acc hacc s hs
    rw [List.foldl_cons] at hs
    by_cases hbad : pystrip a = "" ∨ pystrip a = pystrip text
    · rw [if_pos hbad] at hs
      exact ih acc hacc s hs
    · rw [if_neg hbad] at hs
      push_neg at hbad
      refine ih _ ?_ s hs
      intro t ht
      rcases List.mem_append.mp ht with ht | ht
      · exact hacc t ht
      · rcases List.mem_singleton.mp ht with rfl
        exact hbad

theorem augment_short {m : AugmentationManager} {text lang : String} {n : Nat}
    (h : text = "" ∨ (pystrip text).length < 5) : m.augment text lang n = [] := by
  unfold AugmentationManager.augment
  rw [if_pos h]

theorem augment_of_selected {m : AugmentationManager} {text lang : String} {n : Nat}
    {backend : Backend}
    (hok : ¬ (text = "" ∨ (pystrip text).length < 5))
    (hsel : (m.augmenters lang).orElse (fun _ => m.augmenters "en") = some backend) :
    m.augment text lang n
      = pydedup (((List.range (max 1 n)).foldl
          (fun acc i => match backend i with
            | Except.error _ => acc
            | Except.ok l => acc ++ l) []).foldl
          (fun acc a => if pystrip a = "" ∨ pystrip a = pystrip text then acc
            else acc ++ [pystrip a]) []) := by
  unfold AugmentationManager.augment
  rw [if_neg hok, hsel]

theorem augment_no_augmenter {m : AugmentationManager} {text lang : String} {n : Nat}
    (hsel : (m.augmenters lang).orElse (fun _ => m.augmenters "en") = none) :
    m.augment text lang n = [] := by
  unfold AugmentationManager.augment
  by_cases hok : text = "" ∨ (pystrip text).length < 5
  · rw [if_pos hok]
  · rw [if_neg hok, hsel]

theorem augLoop_nullify {f : Augmenter} {catReviews : List Review} {lang : String}
    {needed current maxPer : Nat} {choice : Nat → Nat} :
    ∀ (fuel attempts : Nat) (acc : List Review),
      augLoop (nullifyErrors f) catReviews lang needed current maxPer choice fuel attempts acc
        = augLoop f catReviews lang needed current maxPer choice fuel attempts acc := by
  intro fuel
  induction fuel with
  | zero => intro attempts acc; rfl
  | succ fuel ih =>
    intro attempts acc
    rw [augLoop, augLoop]
    by_cases hlen : needed ≤ acc.length
    · simp only [if_pos hlen]
    · simp only [if_neg hlen]
      rcases hf : f attempts
          (catReviews.getD (choice attempts % catReviews.length) default).comment lang
          (min maxPer (1 + needed / max 1 current)) with e | texts
      · simp only [nullifyErrors, hf]
        exact ih (attempts + 1) acc
      · simp only [nullifyErrors, hf]
        exact ih (attempts + 1) _

theorem balanceCat_nullify {f : Augmenter} (strat : String) (target : Nat)
    (maxPer : Nat) (rand : Rand) (cat : String) (g : List Review) :
    balanceCat strat target (some (nullifyErrors f)) maxPer rand cat g
      = balanceCat strat target (some f) maxPer rand cat g := by
  unfold balanceCat
  by_cases h0 : g.length = 0
  · rw [if_pos h0, if_pos h0]
  · rw [if_neg h0, if_neg h0]
    by_cases hlt : g.length < target
    · rw [if_pos hlt, if_pos hlt]
      dsimp only
      rw [augLoop_nullify]
    · rw [if_neg hlt, if_neg hlt]

theorem baseTarget_under (tr : Option ℚ) (mx mn ms : Nat) :
    baseTarget "undersample" tr mx mn ms = mn := rfl

theorem baseTarget_over (tr : Option ℚ) (mx mn ms : Nat) :
    baseTarget "oversample" tr mx mn ms = mx := rfl

theorem balance_eq_else (reviews : List Review) (categories : List String)
    (ms : Nat) (strat : String) (tr : Option ℚ) (am : Option Augmenter)
    (maxPer : Nat) (rand : Rand)
    (h : ¬ (minCount reviews categories = 0 ∨ maxCount reviews categories = 0)) :
    balance_single_game reviews categories ms strat tr am maxPer rand
      = (rand.shuffleP (categories.foldl (balStep reviews strat
            (baseTarget strat tr (maxCount reviews categories)
              (minCount reviews categories) ms) am maxPer rand) {}).bal,
         { before := countsBefore reviews categories
           after := (categories.foldl (balStep reviews strat
              (baseTarget strat tr (maxCount reviews categories)
                (minCount reviews categories) ms) am maxPer rand) {}).after
           strategy := strat
           balanced := true
           augmented_count := (categories.foldl (balStep reviews strat
              (baseTarget strat tr (maxCount reviews categories)
                (minCount reviews categories) ms) am maxPer rand) {}).aug
           subsampled_count := (categories.foldl (balStep reviews strat
              (baseTarget strat tr (maxCount reviews categories)
                (minCount reviews categories) ms) am maxPer rand) {}).sub
           augmentation_used := some ((categories.foldl (balStep reviews strat
              (baseTarget strat tr (maxCount reviews categories)
                (minCount reviews categories) ms) am maxPer rand) {}).used) }) := by
  unfold balance_single_game
  rw [if_neg h]

theorem multi_fold (merge : Nat → String → List Review) (cats : List String) (ms : Nat)
    (strat : String) (tr : Option ℚ) (mgr : Option Augmenter) (maxPer : Nat)
    (src : String) (randOf : Nat → Rand) :
    ∀ (l : List Nat) (st : MultiState),
      ((l.foldl (multiStep merge cats ms strat tr mgr maxPer src randOf) st).collected
        = st.collected ++ ((l.filter (fun g => decide (¬ merge g src = []))).map
            (gameBalanced merge cats ms strat tr mgr maxPer src randOf)).flatten)
      ∧ ((l.foldl (multiStep merge cats ms strat tr mgr maxPer src randOf) st).game_stats
        = st.game_stats ++ (l.filter (fun g => decide (¬ merge g src = []))).map
            (fun g => (g, multiEntry merge cats ms strat tr mgr maxPer src randOf g)))
      ∧ (∀ c : String,
          (l.foldl (multiStep merge cats ms strat tr mgr maxPer src randOf) st).gAfter c
            = st.gAfter c + ((l.filter (fun g => decide (¬ merge g src = []))).map
                (fun g => if c ∈ cats then (catGroup (gameBalanced merge cats ms strat tr
                  mgr maxPer src randOf g) c).length else 0)).sum) := by
  intro l
  induction l with
  | nil => intro st; exact ⟨by simp, by simp, fun c => by simp⟩
  | cons g rest ih =>
    intro st
    rw [List.foldl_cons, List.filter_cons]
    by_cases hg : merge g src = []
    · have hstep : multiStep merge cats ms strat tr mgr maxPer src randOf st g = st := by
        unfold multiStep
        rw [if_pos hg]
      have hcond : ¬ (decide (¬ merge g src = []) = true) := by simp [hg]
      rw [hstep, if_neg hcond]
      exact ih st
    · have hcond : decide (¬ merge g src = []) = true := by simp [hg]
      rw [if_pos hcond]
      have hstep : multiStep merge cats ms strat tr mgr maxPer src randOf st g
          = { collected := st.collected ++ gameBalanced merge cats ms strat tr mgr maxPer
                src randOf g
              game_stats := st.game_stats ++ [(g, multiEntry merge cats ms strat tr mgr
                maxPer src randOf g)]
              gBefore := fun c => st.gBefore c + (if c ∈ cats then
                (catGroup (merge g src) c).length else 0)
              gAfter := fun c => st.gAfter c + (if c ∈ cats then
                (catGroup (gameBalanced merge cats ms strat tr mgr maxPer src randOf g)
                  c).length else 0)
              totAug := st.totAug + ((gameBalanced merge cats ms strat tr mgr maxPer src
                randOf g).filter (fun r => r.is_augmented)).length
              totSub := st.totSub + (gameStatsOf merge cats ms strat tr mgr maxPer src
                randOf g).subsampled_count } := by
        unfold multiStep
        rw [if_neg hg]
      rw [hstep]
      rcases ih _ with ⟨h1, h2, h3⟩
      refine ⟨?_, ?_, ?_⟩
      · rw [h1]
        dsimp only
        rw [List.map_cons, List.flatten_cons, List.append_assoc]
      · rw [h2]
        dsimp only
        rw [List.map_cons]
        simp
      · intro c
        rw [h3 c]
        dsimp only
        rw [List.map_cons, List.sum_cons]
        omega

end Lemmas

/-- C1, counterexample: the claim says that one empty configured category
(here neutral, with zero grouped reviews among one positive and one
negative review) makes balance_single_game skip and return
balanced = false; the code proceeds and returns balanced = true. -/
theorem c1_counterexample :
    countsBefore [revP, revN] cats3 "neutral" = 0
    ∧ (balance_single_game [revP, revN] cats3).2.balanced = true := by
  constructor <;> rfl

/-- C1 (amended): balancing is skipped if and only if EVERY configured
category has zero grouped reviews (the guard compares the smallest
NON-EMPTY category count with zero, so a single empty category does not
trigger it); on the skip path the input list is returned unchanged (hence
multiset-identical) with strategy "none" and balanced false, and
otherwise balanced is true. -/
theorem c1_skip_guard (reviews : List Review) (categories : List String)
    (ms : Nat) (strategy : String) (tr : Option ℚ) (am : Option Augmenter)
    (maxPer : Nat) (rand : Rand) :
    ((balance_single_game reviews categories ms strategy tr am maxPer rand).2.balanced = false
      ↔ maxCount reviews categories = 0)
    ∧ (maxCount reviews categories = 0 →
        (balance_single_game reviews categories ms strategy tr am maxPer rand).1 = reviews
        ∧ (balance_single_game reviews categories ms strategy tr am maxPer rand).2.strategy
            = "none") := by
  by_cases hmax : maxCount reviews categories = 0
  · have hmin : minCount reviews categories = 0 := (minCount_eq_zero_iff _ _).mpr hmax
    unfold balance_single_game
    rw [if_pos (Or.inr hmax)]
    exact ⟨⟨fun _ => hmax, fun _ => rfl⟩, fun _ => ⟨rfl, rfl⟩⟩
  · have hmin : ¬ minCount reviews categories = 0 :=
      fun h => hmax ((minCount_eq_zero_iff _ _).mp h)
    unfold balance_single_game
    rw [if_neg (by tauto)]
    simp [hmax]

/-- C1 witness: at the empty input every category is empty, so the skip
path returns the input and strategy "none". -/
theorem c1_skip_guard_witness :
    (balance_single_game [] cats3).1 = ([] : List Review)
    ∧ (balance_single_game [] cats3).2.strategy = "none" :=
  (c1_skip_guard [] cats3 30 "oversample" none none 2 {}).2 (by decide)

/-- C2, counterexample: at category counts 40, 5 and 50 the ratio is
exactly 10, which does not satisfy the strict comparison 10 < ratio, so
the derived target_ratio is 0.6 and base_target is max(int(50 times 0.6),
10) = 30, not the 0.5 and 25 the claim states; moreover the code
truncates with int() where the claim says round: at max_count 41 with
target_ratio 0.75 the code gives 30 while the claimed formula gives
max(round(30.75), 10) = 31. -/
theorem c2_counterexample :
    deriveTargetRatio (ratioOf 50 5) = 3/5
    ∧ ¬ (deriveTargetRatio (ratioOf 50 5) = 1/2)
    ∧ baseTarget "hybrid" none 50 5 10 = 30
    ∧ ¬ (baseTarget "hybrid" none 50 5 10 = 25)
    ∧ hybridBase 41 (3/4) 10 = 30
    ∧ ¬ (hybridBase 41 (3/4) 10 = max (Int.toNat (round ((41 : ℚ) * (3/4)))) 10) := by
  have hb : baseTarget "hybrid" none 50 5 10 = 30 := by
    rw [baseTarget_hybrid_none, deriveTargetRatio_ratio_ten]
    exact hybridBase_50
  refine ⟨deriveTargetRatio_ratio_ten, ?_, hb, by omega, hybridBase_41, ?_⟩
  · rw [deriveTargetRatio_ratio_ten]
    norm_num
  · have hr : round ((41 : ℚ) * (3/4)) = 31 := by norm_num [round_eq]
    rw [hr, hybridBase_41]
    decide

/-- C2 (amended): with no explicit target_ratio the hybrid strategy
derives it from ratio = max_count / min_count by the strict bands
ratio > 10 to 0.5, ratio > 5 to 0.6, ratio > 2 to 0.75, else 1.0, and
sets base_target = max(int(max_count * target_ratio),
min_samples_for_balance) where int truncates toward zero; in particular
for counts 40/5/50 with min_samples_for_balance = 10 the ratio is exactly
10, giving target_ratio 0.6 and base_target max(30, 10) = 30, and the
positive category of the example input is subsampled to 30. -/
theorem c2_hybrid_target (ratio : ℚ) (mx mn ms : Nat) :
    (10 < ratio → deriveTargetRatio ratio = 1/2)
    ∧ (5 < ratio → ratio ≤ 10 → deriveTargetRatio ratio = 3/5)
    ∧ (2 < ratio → ratio ≤ 5 → deriveTargetRatio ratio = 3/4)
    ∧ (ratio ≤ 2 → deriveTargetRatio ratio = 1)
    ∧ baseTarget "hybrid" none mx mn ms
        = max (pytrunc ((mx : ℚ) * deriveTargetRatio (ratioOf mx mn))).toNat ms
    ∧ ratioOf 50 5 = 10
    ∧ baseTarget "hybrid" none 50 5 10 = 30
    ∧ (balance_single_game exHybridReviews cats3 10 "hybrid" none none 2 {}).2.after
        "positive" = 30 := by
  have hb : baseTarget "hybrid" none 50 5 10 = 30 := by
    rw [baseTarget_hybrid_none, deriveTargetRatio_ratio_ten]
    exact hybridBase_50
  refine ⟨?_, ?_, ?_, ?_, rfl, by norm_num [ratioOf], hb, ?_⟩
  · intro h
    unfold deriveTargetRatio
    rw [if_pos h]
  · intro h5 h10
    unfold deriveTargetRatio
    rw [if_neg (by linarith), if_pos h5]
  · intro h2 h5
    unfold deriveTargetRatio
    rw [if_neg (by linarith), if_neg (by linarith), if_pos h2]
  · intro h
    unfold deriveTargetRatio
    rw [if_neg (by linarith), if_neg (by linarith), if_neg (by linarith)]
  · unfold balance_single_game
    rw [if_neg (by decide)]
    rw [show maxCount exHybridReviews cats3 = 50 from rfl,
      show minCount exHybridReviews cats3 = 5 from rfl, hb]
    rfl

/-- C2 witness: a ratio of 11 falls in the first band and derives a
target_ratio of one half. -/
theorem c2_hybrid_target_witness : deriveTargetRatio 11 = 1/2 :=
  (c2_hybrid_target 11 0 0 0).1 (by norm_num)

/-- C3, counterexample: create_augmented_review does not copy the
language field (the copied-attribute list stops at username, rating,
timestamp, game_id, category, label and fileid), so an augmented copy of
a review tagged Spanish loses the tag — refuting "copies all fields of
its source review except the comment text". -/
theorem c3_counterexample :
    revEs.language = some "es"
    ∧ (create_augmented_review revEs "a variant").language = none
    ∧ ¬ ((create_augmented_review revEs "a variant").language = revEs.language) := by
  exact ⟨rfl, rfl, by decide⟩

/-- C3 (amended): every review accepted by the augmentation loop is
flagged is_augmented = true, references the identity of a source review
of the category in augmented_from, copies that source review's username,
rating, timestamp, game_id, category, label and fileid (but NOT its
language, which is left unset), sets raw_text to the new comment, and
has a non-empty comment different from the source review's trimmed
comment. -/
theorem c3_augmented_reviews (f : Augmenter) (catReviews : List Review) (lang : String)
    (needed current maxPer : Nat) (choice : Nat → Nat) (fuel attempts : Nat)
    (hne : catReviews ≠ []) :
    ∀ a ∈ (augLoop f catReviews lang needed current maxPer choice fuel attempts []).1,
      AugOk catReviews a :=
  augLoop_augok hne fuel attempts [] (by intro a ha; cases ha)

/-- C3 witness: one loop round on a singleton neutral category accepts
one variant, and that review satisfies all the amended field

properties. -/
theorem c3_augmented_reviews_witness :
    AugOk [revU] (create_augmented_review revU "a fine variant") := by
  have h := c3_augmented_reviews okAug [revU] "en" 1 1 2 (fun _ => 0) 5 0 (by decide)
  refine h _ ?_
  rw [show (augLoop okAug [revU] "en" 1 1 2 (fun _ => 0) 5 0 []).1
      = [create_augmented_review revU "a fine variant"] from rfl]
  exact List.mem_singleton.mpr rfl

/-- C4, counterexample: with grouped counts positive 2, neutral 0 and
negative 1 the guard does not fire (only the smallest non-empty count is
tested), undersampling proceeds with target 1, and the positive category
ends at 1 while min(original_counts) is 0 — so not every category's final
count equals min(original_counts). -/
theorem c4_counterexample :
    ((cats3.map (fun c => (catGroup [revP, revP2, revN] c).length)).min?.getD 0 = 0)
    ∧ (balance_single_game [revP, revP2, revN] cats3 30 "undersample").2.after "positive" = 1
    ∧ ¬ ((balance_single_game [revP, revP2, revN] cats3 30 "undersample").2.after "positive"
          = (cats3.map (fun c => (catGroup [revP, revP2, revN] c).length)).min?.getD 0) := by
  exact ⟨rfl, rfl, by decide⟩

/-- C4 (amended): for undersample runs that are not skipped, every
non-empty configured category's final count equals the smallest NON-empty
original category count (so when no configured category is empty, every
final count equals min(original_counts)); categories with zero grouped
reviews stay at zero; and the total number of returned reviews is at most
the total number of input reviews. -/
theorem c4_undersample (reviews : List Review) (categories : List String)
    (ms : Nat) (tr : Option ℚ) (am : Option Augmenter) (maxPer : Nat) (rand : Rand)
    (hnd : categories.Nodup)
    (hmax : 0 < maxCount reviews categories)
    (hperm : ∀ cat l, (rand.sampleP cat l).Perm l)
    (hshuf : ∀ l, (rand.shuffleP l).Perm l) :
    (∀ c ∈ categories,
      (balance_single_game reviews categories ms "undersample" tr am maxPer rand).2.after c
        = if (catGroup reviews c).length = 0 then 0 else minCount reviews categories)
    ∧ (balance_single_game reviews categories ms "undersample" tr am maxPer rand).1.length
        ≤ reviews.length := by
  have hmin : ¬ minCount reviews categories = 0 :=
    fun h => by have := (minCount_eq_zero_iff reviews categories).mp h; omega
  have hns : ¬ (minCount reviews categories = 0 ∨ maxCount reviews categories = 0) := by
    push_neg
    exact ⟨hmin, by omega⟩
  rw [balance_eq_else reviews categories ms "undersample" tr am maxPer rand hns]
  rw [baseTarget_under]
  constructor
  · intro c hc
    show (categories.foldl (balStep reviews "undersample" (minCount reviews categories)
        am maxPer rand) {}).after c = _
    rw [foldl_after_mem categories {} hc]
    exact balanceCat_under_len hperm (minCount reviews categories) (catGroup reviews c)
      (fun hpos => minCount_le reviews categories hc hpos)
  · show (rand.shuffleP (categories.foldl (balStep reviews "undersample"
        (minCount reviews categories) am maxPer rand) {}).bal).length ≤ reviews.length
    rw [(hshuf _).length_eq]
    rw [foldl_bal categories {}]
    rw [List.nil_append, List.length_flatten]
    have hle : ∀ c ∈ categories,
        ((balanceCat "undersample" (minCount reviews categories) am maxPer rand c
          (catGroup reviews c)).1).length ≤ (catGroup reviews c).length := by
      intro c hc
      rw [balanceCat_under_len hperm (minCount reviews categories) (catGroup reviews c)
        (fun hpos => minCount_le reviews categories hc hpos)]
      by_cases h0 : (catGroup reviews c).length = 0
      · rw [if_pos h0]; omega
      · rw [if_neg h0]
        exact minCount_le reviews categories hc (Nat.pos_of_ne_zero h0)
    calc ((categories.map (fun cat => (balanceCat "undersample"
            (minCount reviews categories) am maxPer rand cat (catGroup reviews cat)).1)).map
            List.length).sum
        = (categories.map (fun cat => ((balanceCat "undersample"
            (minCount reviews categories) am maxPer rand cat
            (catGroup reviews cat)).1).length)).sum := by
          rw [List.map_map]
          rfl
      _ ≤ (categories.map (fun c => (catGroup reviews c).length)).sum :=
          List.sum_le_sum hle
      _ ≤ reviews.length := sum_catGroup_le categories hnd reviews

/-- C4 witness: undersampling positive 2, neutral 1, negative 1 keeps
every category at 1 and returns 3 of the 4 input reviews. -/
theorem c4_undersample_witness :
    (balance_single_game [revP, revP2, revU, revN] cats3 30 "undersample").2.after "positive" = 1
    ∧ (balance_single_game [revP, revP2, revU, revN] cats3 30 "undersample").1.length ≤ 4 := by
  have h := c4_undersample [revP, revP2, revU, revN] cats3 30 none none 2 {}
    (by decide) (by decide) (fun _ l => List.Perm.refl l) (fun l => List.Perm.refl l)
  refine ⟨?_, ?_⟩
  · rw [h.1 "positive" (by decide)]
    decide
  · exact h.2

/-- C5 (confirmed): for oversample runs that are not skipped, no category
loses items: every configured category's final count is at least its
original count and at most max(original_counts), and when the
augmentation loop accepts the full needed number of variants the final
count equals max(original_counts). -/
theorem c5_oversample (reviews : List Review) (categories : List String)
    (ms : Nat) (tr : Option ℚ) (am : Option Augmenter) (maxPer : Nat) (rand : Rand)
    (hmax : 0 < maxCount reviews categories) :
    ∀ c ∈ categories,
      countsBefore reviews categories c
          ≤ (balance_single_game reviews categories ms "oversample" tr am maxPer rand).2.after c
      ∧ (balance_single_game reviews categories ms "oversample" tr am maxPer rand).2.after c
          ≤ maxCount reviews categories
      ∧ (∀ f : Augmenter, am = some f →
          (catGroup reviews c).length ≠ 0 →
          ((augLoop f (catGroup reviews c) (pyLang ((catGroup reviews c).headD default))
              (maxCount reviews categories - (catGroup reviews c).length)
              (catGroup reviews c).length maxPer (rand.choice c)
              ((maxCount reviews categories - (catGroup reviews c).length) * 5) 0 []).1.length
            = maxCount reviews categories - (catGroup reviews c).length) →
          (balance_single_game reviews categories ms "oversample" tr am maxPer rand).2.after c
            = maxCount reviews categories) := by
  have hmin : ¬ minCount reviews categories = 0 :=
    fun h => by have := (minCount_eq_zero_iff reviews categories).mp h; omega
  have hns : ¬ (minCount reviews categories = 0 ∨ maxCount reviews categories = 0) := by
    push_neg
    exact ⟨hmin, by omega⟩
  rw [balance_eq_else reviews categories ms "oversample" tr am maxPer rand hns]
  rw [baseTarget_over]
  dsimp only
  intro c hc
  have hafter : (categories.foldl (balStep reviews "oversample"
      (maxCount reviews categories) am maxPer rand) {}).after c
      = (balanceCat "oversample" (maxCount reviews categories) am maxPer rand c
          (catGroup reviews c)).1.length := foldl_after_mem categories {} hc
  have hble : (catGroup reviews c).length ≤ maxCount reviews categories :=
    count_le_maxCount reviews categories hc
  show countsBefore reviews categories c ≤ _ ∧ _
  rw [hafter]
  have hbefore : countsBefore reviews categories c = (catGroup reviews c).length := by
    unfold countsBefore
    rw [if_pos hc]
  rw [hbefore]
  by_cases h0 : (catGroup reviews c).length = 0
  · have hz : (balanceCat "oversample" (maxCount reviews categories) am maxPer rand c
        (catGroup reviews c)).1.length = 0 := by
      unfold balanceCat
      rw [if_pos h0]
      rfl
    rw [hz]
    exact ⟨by omega, by omega, fun f _ hne _ => absurd h0 hne⟩
  · by_cases hlt : (catGroup reviews c).length < maxCount reviews categories
    · rcases am with _ | f
      · rw [balanceCat_over_none_len _ _, if_neg h0]
        exact ⟨le_refl _, hble, fun f hf => by cases hf⟩
      · rw [balanceCat_over_some_len _ _ h0 hlt]
        refine ⟨by omega, by omega, ?_⟩
        intro f2 hf2 _ hsucc
        have hf2e : f2 = f := by
          injection hf2 with h
          exact h.symm
        subst hf2e
        rw [hsucc]
        omega
    · rw [balanceCat_pass_len _ _ h0 hlt]
      have heq : (catGroup reviews c).length = maxCount reviews categories := by omega
      exact ⟨le_refl _, hble, fun f _ _ _ => heq⟩

/-- C5 witness: oversampling positive 2, neutral 0 (empty categories stay
empty but do not skip the run), negative 1 with a working augmenter
brings negative up to the maximum count 2. -/
theorem c5_oversample_witness :
    (balance_single_game [revP, revP2, revN] cats3 30 "oversample" none (some okAug)
      2 {}).2.after "negative" = 2 := by
  have h := (c5_oversample [revP, revP2, revN] cats3 30 none (some okAug) 2 {}
    (by decide) "negative" (by decide)).2.2 okAug rfl (by decide) (by decide)
  rw [h]
  decide

/-- C6, counterexample: augment never truncates its cleaned,
de-duplicated result to num_augmentations — the loop runs
max(1, num_augmentations) rounds, so with count 0 and a working backend
it returns one variant, which is more than the claimed bound of at most
count = 0 variants. -/
theorem c6_counterexample :
    (mgrOne.augment "abcdef" "en" 0).length = 1
    ∧ ¬ ((mgrOne.augment "abcdef" "en" 0).length ≤ 0) := by
  exact ⟨rfl, by decide⟩

/-- C6 (amended): augment returns distinct non-empty stripped strings,
each different from the stripped input and from each other (order
preserving, first occurrence kept); it returns the empty sequence when
the input is empty or shorter than 5 characters after stripping, and it
falls back to the default-language augmenter (returning no variants if
none is available) when the requested language has none; the result
length is at most max(1, count) PROVIDED each backend call yields at most
one variant — the code never truncates the result to count, so with
count = 0 one variant can be returned. -/
theorem c6_augment_contract (m : AugmentationManager) (text lang : String) (n : Nat) :
    ((text = "" ∨ (pystrip text).length < 5) → m.augment text lang n = [])
    ∧ (m.augment text lang n).Nodup
    ∧ (∀ s ∈ m.augment text lang n, s ≠ "" ∧ s ≠ pystrip text)
    ∧ (m.augmenters lang = none → m.augment text lang n = m.augment text "en" n)
    ∧ (∀ backend : Backend,
        (m.augmenters lang).orElse (fun _ => m.augmenters "en") = some backend →
        (∀ i l, backend i = Except.ok l → l.length ≤ 1) →
        (m.augment text lang n).length ≤ max 1 n) := by
  refine ⟨fun h => augment_short h, ?_, ?_, ?_, ?_⟩
  · by_cases hok : text = "" ∨ (pystrip text).length < 5
    · rw [augment_short hok]; exact List.nodup_nil
    · rcases hsel : (m.augmenters lang).orElse (fun _ => m.augmenters "en") with _ | b
      · rw [augment_no_augmenter hsel]; exact List.nodup_nil
      · rw [augment_of_selected hok hsel]; exact pydedup_nodup _
  · by_cases hok : text = "" ∨ (pystrip text).length < 5
    · rw [augment_short hok]; intro s hs; cases hs
    · rcases hsel : (m.augmenters lang).orElse (fun _ => m.augmenters "en") with _ | b
      · rw [augment_no_augmenter hsel]; intro s hs; cases hs
      · rw [augment_of_selected hok hsel]
        intro s hs
        exact cleaned_mem _ [] (fun t ht => by cases ht) s (pydedup_subset hs)
  · intro h
    by_cases hok : text = "" ∨ (pystrip text).length < 5
    · rw [augment_short hok, augment_short hok]
    · rcases he : m.augmenters "en" with _ | b
      · rw [augment_no_augmenter (by rw [h, he]; rfl),
          @augment_no_augmenter m text "en" n (by rw [he]; rfl)]
      · rw [augment_of_selected hok (by rw [h, he]; rfl),
          @augment_of_selected m text "en" n b hok (by rw [he]; rfl)]
  · intro backend hsel hb
    by_cases hok : text = "" ∨ (pystrip text).length < 5
    · rw [augment_short hok]; simp
    · rw [augment_of_selected hok hsel]
      have h1 : ((List.range (max 1 n)).foldl
          (fun acc i => match backend i with
            | Except.error _ => acc
            | Except.ok l => acc ++ l) []).length ≤ max 1 n := by
        have := foldl_length_le
          (fun acc i => match backend i with
            | Except.error _ => acc
            | Except.ok l => acc ++ l)
          (fun acc i => by
            dsimp only
            rcases hf : backend i with e | l
            · simp [hf]
            · have := hb i l hf
              simp only [hf, List.length_append]
              omega)
          (List.range (max 1 n)) []
        simpa using this
      have h2 := foldl_length_le
        (fun acc a => if pystrip a = "" ∨ pystrip a = pystrip text then acc
          else acc ++ [pystrip a])
        (fun acc a => by
          dsimp only
          by_cases hbad : pystrip a = "" ∨ pystrip a = pystrip text
          · rw [if_pos hbad]; omega
          · rw [if_neg hbad]; simp)
        ((List.range (max 1 n)).foldl
          (fun acc i => match backend i with
            | Except.error _ => acc
            | Except.ok l => acc ++ l) []) []
      have h3 := foldl_length_le (fun acc a => if a ∈ acc then acc else acc ++ [a])
        (fun acc a => by
          dsimp only
          by_cases hmem : a ∈ acc
          · rw [if_pos hmem]; omega
          · rw [if_neg hmem]; simp)
        (((List.range (max 1 n)).foldl
          (fun acc i => match backend i with
            | Except.error _ => acc
            | Except.ok l => acc ++ l) []).foldl
          (fun acc a => if pystrip a = "" ∨ pystrip a = pystrip text then acc
            else acc ++ [pystrip a]) []) []
      unfold pydedup
      simp only [List.length_nil, Nat.zero_add] at h2 h3
      omega

/-- C6 witness: three requested variants from the single-variant default
backend give at most max(1, 3) results. -/
theorem c6_augment_contract_witness :
    (mgrOne.augment "abcdef" "en" 3).length ≤ max 1 3 :=
  (c6_augment_contract mgrOne "abcdef" "en" 3).2.2.2.2 bkOne rfl
    (fun i l h => by injection h with h2; rw [← h2]; decide)

/-- C7 (confirmed): the oversampling loop, started with an empty accepted
list, a zero attempt counter and an attempt budget of needed times 5, is
a total function (it is structurally recursive on the remaining budget);
it never accepts more than needed variants, never makes more than
needed times 5 attempts, and when it ends with a shortfall the budget was
exhausted exactly — so it stops at needed accepted variants or at
needed times 5 attempts, whichever comes first, and a shortfall leaves
the category under target without failing. -/
theorem c7_attempt_budget (f : Augmenter) (catReviews : List Review) (lang : String)
    (needed current maxPer : Nat) (choice : Nat → Nat) :
    ((augLoop f catReviews lang needed current maxPer choice (needed * 5) 0 []).1.length
        ≤ needed)
    ∧ ((augLoop f catReviews lang needed current maxPer choice (needed * 5) 0 []).2
        ≤ needed * 5)
    ∧ ((augLoop f catReviews lang needed current maxPer choice (needed * 5) 0 []).1.length
          < needed →
        (augLoop f catReviews lang needed current maxPer choice (needed * 5) 0 []).2
          = needed * 5)
    ∧ ((augLoop f catReviews lang needed current maxPer choice (needed * 5) 0 []).1.length
          = needed
        ∨ (augLoop f catReviews lang needed current maxPer choice (needed * 5) 0 []).2
          = needed * 5) := by
  have h := @augLoop_spec f catReviews lang needed current maxPer choice
    (needed * 5) 0 [] (by simp)
  refine ⟨h.1, by have := h.2.1; omega, fun hl => by have := h.2.2 hl; omega, ?_⟩
  by_cases hl : (augLoop f catReviews lang needed current maxPer choice
      (needed * 5) 0 []).1.length < needed
  · right; have := h.2.2 hl; omega
  · left; omega

/-- C7 witness: with an always-raising augmenter and needed = 1 the loop
accepts nothing and stops after exactly 5 attempts. -/
theorem c7_attempt_budget_witness :
    (augLoop raisingAug [revU] "en" 1 1 2 (fun _ => 0) (1 * 5) 0 []).2 = 1 * 5 :=
  (c7_attempt_budget raisingAug [revU] "en" 1 1 2 (fun _ => 0)).2.2.1 (by decide)

/-- C8 (confirmed): in a multi-game run, games whose loader yields no
reviews get no game_stats entry (the recorded ids are exactly the loader
non-empty ids, in input order); the final collection is the concatenation
of the processed games' balanced outputs in input order; total_after is
the sum of those outputs' lengths; and for every category the global
after-count equals the sum over the recorded game_stats entries of that
game's after-count. -/
theorem c8_aggregation (ids : List Nat) (merge : Nat → String → List Review)
    (cats : List String) (ms : Nat) (strat : String) (tr : Option ℚ)
    (useAug : Bool) (am : Augmenter) (maxPer : Nat) (src : String)
    (randOf : Nat → Rand) :
    ((collect_balanced_reviews_multi_game ids merge cats ms strat tr useAug am maxPer
        src randOf).2.game_stats.map Prod.fst
      = ids.filter (fun g => decide (¬ merge g src = [])))
    ∧ ((collect_balanced_reviews_multi_game ids merge cats ms strat tr useAug am maxPer
        src randOf).1
      = ((ids.filter (fun g => decide (¬ merge g src = []))).map
          (gameBalanced merge cats ms strat tr (if useAug then some am else none)
            maxPer src randOf)).flatten)
    ∧ ((collect_balanced_reviews_multi_game ids merge cats ms strat tr useAug am maxPer
        src randOf).2.total_after
      = (((ids.filter (fun g => decide (¬ merge g src = []))).map
          (gameBalanced merge cats ms strat tr (if useAug then some am else none)
            maxPer src randOf)).map List.length).sum)
    ∧ (∀ c : String,
        (collect_balanced_reviews_multi_game ids merge cats ms strat tr useAug am maxPer
          src randOf).2.counts_after c
        = ((collect_balanced_reviews_multi_game ids merge cats ms strat tr useAug am
            maxPer src randOf).2.game_stats.map
            (fun pe => pe.2.counts_after c)).sum) := by
  obtain ⟨h1, h2, h3⟩ := multi_fold merge cats ms strat tr
    (if useAug then some am else none) maxPer src randOf ids {}
  have e1 : (collect_balanced_reviews_multi_game ids merge cats ms strat tr useAug am
      maxPer src randOf).1
      = (ids.foldl (multiStep merge cats ms strat tr
          (if useAug then some am else none) maxPer src randOf) {}).collected := rfl
  have e2 : (collect_balanced_reviews_multi_game ids merge cats ms strat tr useAug am
      maxPer src randOf).2.game_stats
      = (ids.foldl (multiStep merge cats ms strat tr
          (if useAug then some am else none) maxPer src randOf) {}).game_stats := rfl
  have e3 : (collect_balanced_reviews_multi_game ids merge cats ms strat tr useAug am
      maxPer src randOf).2.total_after
      = (ids.foldl (multiStep merge cats ms strat tr
          (if useAug then some am else none) maxPer src randOf) {}).collected.length := rfl
  have e4 : ∀ c, (collect_balanced_reviews_multi_game ids merge cats ms strat tr useAug
      am maxPer src randOf).2.counts_after c
      = (ids.foldl (multiStep merge cats ms strat tr
          (if useAug then some am else none) maxPer src randOf) {}).gAfter c :=
    fun c => rfl
  refine ⟨?_, ?_, ?_, ?_⟩
  · rw [e2, h2]
    simp [List.map_map, Function.comp_def]
  · rw [e1, h1]
    simp
  · rw [e3, h1]
    simp [List.length_flatten]
  · intro c
    rw [e4 c, h3 c, e2, h2]
    simp only [List.map_map, List.nil_append, Nat.zero_add]
    congr 1

/-- C9 (confirmed): exceptions from the augmentation backend never escape
— balancing with a raising augmenter is identical to balancing with the
same augmenter whose raised calls return no variants; the balanced flag
of the result never depends on the augmenter at all; and inside the
manager, a backend that raises on every call yields an empty variant list
instead of propagating. -/
theorem c9_exception_isolation :
    (∀ (f : Augmenter) (reviews : List Review) (categories : List String)
        (ms : Nat) (strat : String) (tr : Option ℚ) (maxPer : Nat) (rand : Rand),
      balance_single_game reviews categories ms strat tr (some f) maxPer rand
        = balance_single_game reviews categories ms strat tr (some (nullifyErrors f))
            maxPer rand)
    ∧ (∀ (f : Augmenter) (am2 : Option Augmenter) (reviews : List Review)
        (categories : List String) (ms : Nat) (strat : String) (tr : Option ℚ)
        (maxPer : Nat) (rand : Rand),
      (balance_single_game reviews categories ms strat tr (some f) maxPer rand).2.balanced
        = (balance_single_game reviews categories ms strat tr am2 maxPer rand).2.balanced)
    ∧ (∀ (m : AugmentationManager) (text lang : String) (n : Nat) (backend : Backend),
        (m.augmenters lang).orElse (fun _ => m.augmenters "en") = some backend →
        (∀ i, ∃ e, backend i = Except.error e) →
        m.augment text lang n = []) := by
  refine ⟨?_, ?_, ?_⟩
  · intro f reviews categories ms strat tr maxPer rand
    unfold balance_single_game
    by_cases hns : minCount reviews categories = 0 ∨ maxCount reviews categories = 0
    · rw [if_pos hns, if_pos hns]
    · rw [if_neg hns, if_neg hns]
      have hstep : balStep reviews strat
          (baseTarget strat tr (maxCount reviews categories) (minCount reviews categories) ms)
          (some (nullifyErrors f)) maxPer rand
          = balStep reviews strat
            (baseTarget strat tr (maxCount reviews categories) (minCount reviews categories) ms)
            (some f) maxPer rand := by
        funext st cat
        unfold balStep
        rw [balanceCat_nullify]
      rw [hstep]
  · intro f am2 reviews categories ms strat tr maxPer rand
    unfold balance_single_game
    by_cases hns : minCount reviews categories = 0 ∨ maxCount reviews categories = 0
    · rw [if_pos hns, if_pos hns]
    · rw [if_neg hns, if_neg hns]
  · intro m text lang n backend hsel herr
    by_cases hok : text = "" ∨ (pystrip text).length < 5
    · exact augment_short hok
    · rw [augment_of_selected hok hsel]
      have hraw : (List.range (max 1 n)).foldl
          (fun acc i => match backend i with
            | Except.error _ => acc
            | Except.ok l => acc ++ l) [] = ([] : List String) :=
        foldl_fixed _ (fun acc i => by
          rcases herr i with ⟨e, he⟩
          simp only [he]) _ []
      rw [hraw]
      rfl

/-- C9 witness: the manager with an always-raising default backend
returns the empty variant list instead of raising. -/
theorem c9_exception_isolation_witness : mgrErr.augment "abcdef" "en" 2 = [] :=
  c9_exception_isolation.2.2 mgrErr "abcdef" "en" 2 bkErr rfl (fun _ => ⟨"down", rfl⟩)

/-- C10 (confirmed): whenever the guard does not fire the returned stats
have balanced = true and the requested strategy, and include the
augmentation_used key; the skip path has balanced = false, strategy
"none" and omits augmentation_used (modelled as none). -/
theorem c10_stats_flags (reviews : List Review) (categories : List String)
    (ms : Nat) (strategy : String) (tr : Option ℚ) (am : Option Augmenter)
    (maxPer : Nat) (rand : Rand) :
    (0 < maxCount reviews categories →
       (balance_single_game reviews categories ms strategy tr am maxPer rand).2.balanced = true
       ∧ (balance_single_game reviews categories ms strategy tr am maxPer rand).2.strategy
           = strategy
       ∧ ((balance_single_game reviews categories ms strategy tr am maxPer
             rand).2.augmentation_used).isSome = true)
    ∧ (maxCount reviews categories = 0 →
       (balance_single_game reviews categories ms strategy tr am maxPer rand).2.balanced = false
       ∧ (balance_single_game reviews categories ms strategy tr am maxPer rand).2.strategy
           = "none"
       ∧ (balance_single_game reviews categories ms strategy tr am maxPer
            rand).2.augmentation_used = none) := by
  by_cases hmax : maxCount reviews categories = 0
  · have hmin : minCount reviews categories = 0 := (minCount_eq_zero_iff _ _).mpr hmax
    unfold balance_single_game
    rw [if_pos (Or.inr hmax)]
    exact ⟨fun h => absurd hmax (by omega), fun _ => ⟨rfl, rfl, rfl⟩⟩
  · have hmin : ¬ minCount reviews categories = 0 :=
      fun h => hmax ((minCount_eq_zero_iff _ _).mp h)
    unfold balance_single_game
    rw [if_neg (by tauto)]
    simp [hmax]

/-- C10 witness: a run with one positive and one negative review is not
skipped and reports the requested strategy with the augmentation_used key
present; the empty run omits the key. -/
theorem c10_stats_flags_witness :
    ((balance_single_game [revP, revN] cats3).2.strategy = "oversample"
      ∧ ((balance_single_game [revP, revN] cats3).2.augmentation_used).isSome = true)
    ∧ (balance_single_game [] cats3).2.augmentation_used = none :=
  ⟨⟨((c10_stats_flags [revP, revN] cats3 30 "oversample" none none 2 {}).1 (by decide)).2.1,
    ((c10_stats_flags [revP, revN] cats3 30 "oversample" none none 2 {}).1 (by decide)).2.2⟩,
   ((c10_stats_flags [] cats3 30 "oversample" none none 2 {}).2 (by decide)).2.2⟩

end BGG
